import Mathlib

/-!
Verification of the Teammate Reputation System (TRS) reputation engine.

The definitions below are a shallow embedding of the Python source:

* `models.py` : `_clamp01`, `_normalize_0_to_10`,
  `User.compute_transitive_trust_scores`, `User.reputation`;
* `app.py` : `_rep_overall_score_0_to_10`, `_aggregate_team_rep_0_to_10`,
  the lobby listing sort (`lobbies_page` / `lobbies`), the rating
  submission handlers (`rate_member_page` / `rate_member`) and the edge
  collapser of `api_graph`.

Python floats are modelled by `ℚ` (exact rational arithmetic); database
`NULL`s by `Option`; database row sets by `List`.  Dictionary
accumulation loops are modelled by grouping (filter / sum), which agrees
with the source because addition of rationals is commutative.
-/

namespace TRS

/-- One row of the `rating` table (`models.py`, class `Rating`).  Only the
columns read by the engine are modelled; `contribution` and
`communication` are nullable integer columns (embedded as `Option ℚ`
since the engine immediately coerces them with `float(...)`). -/
structure RatingRow where
  team_id : Option Int
  rater_id : Option Int
  target_user_id : Option Int
  contribution : Option ℚ
  communication : Option ℚ
  would_work_again : Bool
deriving DecidableEq

/-- `models._clamp01`. -/
def clamp01 (v : ℚ) : ℚ :=
  if v < 0 then 0 else if v > 1 then 1 else v

/-- `models._normalize_0_to_10`: `None ↦ 0.0`, otherwise `clamp01 (v / 10)`.
(The Python `float(value)` conversion cannot fail on a numeric database
column; a non-numeric value would be coerced to `0.0` by the
`except` branch, never raising.) -/
def normalize_0_to_10 : Option ℚ → ℚ
  | none => 0
  | some v => clamp01 (v / 10)

/-- The per-row local trust used in `compute_transitive_trust_scores`
(models.py line 117):
`local = (contrib_n + comm_n + wwa_n) / 3.0`. -/
def localTrust (r : RatingRow) : ℚ :=
  (normalize_0_to_10 r.contribution + normalize_0_to_10 r.communication +
    (if r.would_work_again then 1 else 0)) / 3

/-- Modelled from the spec (§4.1): an axis score is clamped to `[0,10]`
then divided by `10`; missing values become `0`. -/
def specAxisNorm : Option ℚ → ℚ
  | none => 0
  | some v => max 0 (min 10 v) / 10

/-- Modelled from the spec (§4.1):
`local = (contrib_norm + comm_norm + wwa_norm) / 3` with
`would_work_again` mapped to `1`/`0`. -/
def specLocalTrust (r : RatingRow) : ℚ :=
  (specAxisNorm r.contribution + specAxisNorm r.communication +
    (if r.would_work_again then 1 else 0)) / 3

lemma clamp01_eq_max_min (v : ℚ) : clamp01 v = max 0 (min 1 v) := by
  unfold clamp01
  rcases lt_trichotomy v 0 with h | h | h
  · rw [if_pos h, max_eq_left]
    exact le_trans (min_le_right 1 v) h.le
  · subst h
    norm_num
  · rw [if_neg (not_lt.mpr h.le)]
    by_cases h1 : v > 1
    · rw [if_pos h1, min_eq_left h1.le, max_eq_right zero_le_one]
    · rw [if_neg h1, min_eq_right (not_lt.mp h1), max_eq_right h.le]

lemma normalize_eq_specAxisNorm (v : Option ℚ) :
    normalize_0_to_10 v = specAxisNorm v := by
  cases v with
  | none => rfl
  | some q =>
      simp only [normalize_0_to_10, specAxisNorm, clamp01]
      by_cases h0 : q < 0
      · rw [if_pos (div_neg_of_neg_of_pos h0 (by norm_num)),
          min_eq_right (by linarith : q ≤ 10), max_eq_left h0.le, zero_div]
      · push_neg at h0
        by_cases h1 : 10 < q
        · rw [if_neg (not_lt.mpr (by positivity)),
            if_pos ((one_lt_div (by norm_num : (0:ℚ) < 10)).mpr h1),
            min_eq_left h1.le, max_eq_right (by norm_num : (0:ℚ) ≤ 10)]
          norm_num
        · push_neg at h1
          rw [if_neg (not_lt.mpr (by positivity)),
            if_neg (not_lt.mpr ((div_le_one (by norm_num : (0:ℚ) < 10)).mpr h1)),
            min_eq_right h1, max_eq_right h0]

lemma clamp01_nonneg (v : ℚ) : 0 ≤ clamp01 v := by
  rw [clamp01_eq_max_min]; exact le_max_left 0 _

lemma clamp01_le_one (v : ℚ) : clamp01 v ≤ 1 := by
  rw [clamp01_eq_max_min]
  exact max_le zero_le_one (min_le_left 1 v)

lemma normalize_nonneg (v : Option ℚ) : 0 ≤ normalize_0_to_10 v := by
  cases v with
  | none => exact le_refl 0
  | some q => exact clamp01_nonneg _

lemma normalize_le_one (v : Option ℚ) : normalize_0_to_10 v ≤ 1 := by
  cases v with
  | none => exact zero_le_one
  | some q => exact clamp01_le_one _

lemma localTrust_nonneg (r : RatingRow) : 0 ≤ localTrust r := by
  unfold localTrust
  have h1 := normalize_nonneg r.contribution
  have h2 := normalize_nonneg r.communication
  have h3 : (0:ℚ) ≤ (if r.would_work_again then 1 else 0) := by
    split <;> norm_num
  positivity

lemma localTrust_le_one (r : RatingRow) : localTrust r ≤ 1 := by
  unfold localTrust
  have h1 := normalize_le_one r.contribution
  have h2 := normalize_le_one r.communication
  have h3 : (if r.would_work_again then (1:ℚ) else 0) ≤ 1 := by
    split <;> norm_num
  linarith

/-- Effectiveness filter of `compute_transitive_trust_scores`
(models.py lines 102–119): a row yields an edge iff both endpoints are
non-null, distinct, both are ids of existing users, and the local trust
is positive. -/
def trustEff (ids : List Int) (r : RatingRow) : Bool :=
  match r.rater_id, r.target_user_id with
  | some a, some b =>
      a != b && ids.contains a && ids.contains b && decide (0 < localTrust r)
  | _, _ => false

/-- Rows feeding the `pair_sum`/`pair_count` entry of an ordered pair
(models.py lines 121–123).  The source keys pairs by array index;
since `user_ids` are distinct primary keys, keying by the user ids
themselves is the same mapping up to the index bijection. -/
def trustPairRows (ids : List Int) (rows : List RatingRow) (a b : Int) :
    List RatingRow :=
  rows.filter (fun r =>
    trustEff ids r && r.rater_id == some a && r.target_user_id == some b)

/-- `pair_sum[(i, j)]` of models.py. -/
def trustPairSum (ids : List Int) (rows : List RatingRow) (a b : Int) : ℚ :=
  ((trustPairRows ids rows a b).map localTrust).sum

/-- `pair_count[(i, j)]` of models.py. -/
def trustPairCount (ids : List Int) (rows : List RatingRow) (a b : Int) : ℕ :=
  (trustPairRows ids rows a b).length

/-- The collapsed edge weight `c_ij = s / count` (models.py line 126);
`0` for pairs with no effective rows (absent dictionary entries). -/
def trustPairMean (ids : List Int) (rows : List RatingRow) (a b : Int) : ℚ :=
  trustPairSum ids rows a b / (trustPairCount ids rows a b : ℚ)

/-- `outgoing_sum[i]` (models.py line 128): the sum of the collapsed
outgoing edge weights of rater `a`.  Absent pairs contribute `0`. -/
def outSum (ids : List Int) (w : Int → Int → ℚ) (a : Int) : ℚ :=
  (ids.map (w a)).sum

/-- One power-iteration step (models.py lines 138–158), over a trust
vector `t` stored positionally parallel to `ids`, with collapsed edge
weights `w`.  Entry `j`:
`(1-d)·p_j + d·(dangling/n) + Σ_{i : outSum i > 0} d·(w i j / outSum i)·t_i`. -/
def trustStep (ids : List Int) (w : Int → Int → ℚ) (d : ℚ) (t : List ℚ) :
    List ℚ :=
  let n : ℚ := (ids.length : ℚ)
  let dangling : ℚ :=
    (((ids.zip t).filter (fun p => decide (outSum ids w p.1 ≤ 0))).map
      (fun p => p.2)).sum
  ids.map (fun j =>
    (1 - d) * (1 / n) + d * (dangling / n) +
      ((ids.zip t).map (fun p =>
        if 0 < outSum ids w p.1 then d * (w p.1 j / outSum ids w p.1) * p.2
        else 0)).sum)

/-- The convergence test `diff = sum(abs(new_t[i] - t[i]))`
(models.py line 160). -/
def l1diff (a b : List ℚ) : ℚ :=
  ((a.zip b).map (fun p => |p.1 - p.2|)).sum

/-- The iteration loop (models.py lines 137–163): run at most `fuel`
steps, stopping early as soon as `diff < tol` (the vector assigned in
that final iteration is kept). -/
def trustIter (ids : List Int) (w : Int → Int → ℚ) (d tol : ℚ) :
    ℕ → List ℚ → List ℚ
  | 0, t => t
  | Nat.succ k, t =>
      let t2 := trustStep ids w d t
      if l1diff t t2 < tol then t2 else trustIter ids w d tol k t2

/-- `compute_transitive_trust_scores` with the collapsed edge weights
abstracted as `w` (models.py lines 65–169): empty user set returns the
empty map; otherwise iterate from the uniform vector, then renormalize
by the L1 total when it is positive, and pair the scores with the ids. -/
def computeTrustW (ids : List Int) (w : Int → Int → ℚ) (d : ℚ)
    (maxIter : ℕ) (tol : ℚ) : List (Int × ℚ) :=
  if ids.length = 0 then []
  else
    let n : ℚ := (ids.length : ℚ)
    let t := trustIter ids w d tol maxIter (ids.map fun _ => 1 / n)
    let total := t.sum
    let tf := if 0 < total then t.map (fun x => x / total) else t
    ids.zip tf

/-- `User.compute_transitive_trust_scores(damping, max_iter, tol)`. -/
def computeTrust (ids : List Int) (rows : List RatingRow) (d : ℚ)
    (maxIter : ℕ) (tol : ℚ) : List (Int × ℚ) :=
  computeTrustW ids (trustPairMean ids rows) d maxIter tol

/-- `User.compute_transitive_trust_scores()` with the default arguments
`damping=0.85`, `max_iter=50`, `tol=1e-10`. -/
def computeTrustDefault (ids : List Int) (rows : List RatingRow) :
    List (Int × ℚ) :=
  computeTrust ids rows (17 / 20) 50 (1 / 10000000000)

lemma trustPairSum_nonneg (ids : List Int) (rows : List RatingRow)
    (a b : Int) : 0 ≤ trustPairSum ids rows a b := by
  apply List.sum_nonneg
  intro x hx
  obtain ⟨r, _, rfl⟩ := List.mem_map.mp hx
  exact localTrust_nonneg r

lemma trustPairMean_nonneg (ids : List Int) (rows : List RatingRow)
    (a b : Int) : 0 ≤ trustPairMean ids rows a b :=
  div_nonneg (trustPairSum_nonneg ids rows a b) (Nat.cast_nonneg _)

lemma outSum_nonneg (ids : List Int) (w : Int → Int → ℚ)
    (hw : ∀ a b, 0 ≤ w a b) (a : Int) : 0 ≤ outSum ids w a := by
  apply List.sum_nonneg
  intro x hx
  obtain ⟨b, _, rfl⟩ := List.mem_map.mp hx
  exact hw a b

lemma trustStep_length (ids : List Int) (w : Int → Int → ℚ) (d : ℚ)
    (t : List ℚ) : (trustStep ids w d t).length = ids.length := by
  simp [trustStep]

lemma trustIter_length (ids : List Int) (w : Int → Int → ℚ) (d tol : ℚ) :
    ∀ (k : ℕ) (t : List ℚ), t.length = ids.length →
      (trustIter ids w d tol k t).length = ids.length := by
  intro k
  induction k with
  | zero => intro t ht; exact ht
  | succ k ih =>
      intro t ht
      simp only [trustIter]
      split
      · exact trustStep_length ids w d t
      · exact ih _ (trustStep_length ids w d t)

/-- Every entry produced by a step is at least `(1-d)/n`. -/
lemma trustStep_lower (ids : List Int) (w : Int → Int → ℚ) (d : ℚ)
    (hw : ∀ a b, 0 ≤ w a b) (hd0 : 0 ≤ d) (t : List ℚ)
    (ht : ∀ x ∈ t, 0 ≤ x) :
    ∀ x ∈ trustStep ids w d t, (1 - d) * (1 / (ids.length : ℚ)) ≤ x := by
  intro x hx
  simp only [trustStep, List.mem_map] at hx
  obtain ⟨j, _, rfl⟩ := hx
  have hdang : (0:ℚ) ≤
      (((ids.zip t).filter (fun p => decide (outSum ids w p.1 ≤ 0))).map
        (fun p => p.2)).sum := by
    apply List.sum_nonneg
    intro y hy
    obtain ⟨p, hp, rfl⟩ := List.mem_map.mp hy
    exact ht _ (List.of_mem_zip (List.mem_of_mem_filter hp)).2
  have hmain : (0:ℚ) ≤
      ((ids.zip t).map (fun p =>
        if 0 < outSum ids w p.1 then d * (w p.1 j / outSum ids w p.1) * p.2
        else 0)).sum := by
    apply List.sum_nonneg
    intro y hy
    obtain ⟨p, hp, rfl⟩ := List.mem_map.mp hy
    split
    · have h2 := ht _ (List.of_mem_zip hp).2
      have h3 := hw p.1 j
      positivity
    · exact le_refl 0
  have hlen : (0:ℚ) ≤ (ids.length : ℚ) := Nat.cast_nonneg _
  have hd2 : (0:ℚ) ≤ d *
      ((((ids.zip t).filter (fun p => decide (outSum ids w p.1 ≤ 0))).map
        (fun p => p.2)).sum / (ids.length : ℚ)) := by positivity
  linarith

lemma trustStep_pos (ids : List Int) (w : Int → Int → ℚ) (d : ℚ)
    (hw : ∀ a b, 0 ≤ w a b) (hd0 : 0 ≤ d) (hd1 : d < 1)
    (hids : ids ≠ []) (t : List ℚ) (ht : ∀ x ∈ t, 0 ≤ x) :
    ∀ x ∈ trustStep ids w d t, 0 < x := by
  intro x hx
  have hlen : (0:ℚ) < (ids.length : ℚ) := by
    have := List.length_pos.mpr hids
    exact_mod_cast this
  have hbase : (0:ℚ) < (1 - d) * (1 / (ids.length : ℚ)) := by
    have : (0:ℚ) < 1 - d := by linarith
    positivity
  exact lt_of_lt_of_le hbase (trustStep_lower ids w d hw hd0 t ht x hx)

lemma trustIter_pos (ids : List Int) (w : Int → Int → ℚ) (d tol : ℚ)
    (hw : ∀ a b, 0 ≤ w a b) (hd0 : 0 ≤ d) (hd1 : d < 1) (hids : ids ≠ []) :
    ∀ (k : ℕ) (t : List ℚ), (∀ x ∈ t, 0 < x) →
      ∀ x ∈ trustIter ids w d tol k t, 0 < x := by
  intro k
  induction k with
  | zero => intro t ht; exact ht
  | succ k ih =>
      intro t ht
      have ht' : ∀ x ∈ t, 0 ≤ x := fun x hx => (ht x hx).le
      have h2 := trustStep_pos ids w d hw hd0 hd1 hids t ht'
      simp only [trustIter]
      split
      · exact h2
      · exact ih _ h2

lemma sum_map_div (l : List ℚ) (c : ℚ) :
    (l.map (fun x => x / c)).sum = l.sum / c := by
  induction l with
  | nil => simp
  | cons a l ih => simp [ih, add_div]

/-- The final (renormalized) trust vector: keys are exactly the user
ids, every component is nonnegative, and the components sum to `1`
exactly, for any damping `0 ≤ d < 1` and a non-empty user set. -/
lemma computeTrust_spec (ids : List Int) (rows : List RatingRow) (d : ℚ)
    (maxIter : ℕ) (tol : ℚ) (hids : ids ≠ []) (hd0 : 0 ≤ d) (hd1 : d < 1) :
    (computeTrust ids rows d maxIter tol).map Prod.fst = ids ∧
      (∀ p ∈ computeTrust ids rows d maxIter tol, 0 ≤ p.2) ∧
      ((computeTrust ids rows d maxIter tol).map Prod.snd).sum = 1 := by
  have hlen0 : ids.length ≠ 0 := fun h => hids (List.length_eq_zero.mp h)
  have hlenQ : (0:ℚ) < (ids.length : ℚ) := by
    exact_mod_cast Nat.pos_of_ne_zero hlen0
  set w := trustPairMean ids rows with hw_def
  have hw : ∀ a b, 0 ≤ w a b := fun a b => trustPairMean_nonneg ids rows a b
  set t0 : List ℚ := ids.map (fun _ => 1 / (ids.length : ℚ)) with ht0_def
  have ht0pos : ∀ x ∈ t0, 0 < x := by
    intro x hx
    obtain ⟨_, _, rfl⟩ := List.mem_map.mp hx
    positivity
  set t := trustIter ids w d tol maxIter t0 with ht_def
  have htpos : ∀ x ∈ t, 0 < x :=
    trustIter_pos ids w d tol hw hd0 hd1 hids maxIter t0 ht0pos
  have htlen : t.length = ids.length :=
    trustIter_length ids w d tol maxIter t0 (by simp [ht0_def])
  have htne : t ≠ [] := by
    intro h
    rw [h] at htlen
    exact hlen0 htlen.symm
  have htotal : 0 < t.sum := List.sum_pos t htpos htne
  set tf : List ℚ := t.map (fun x => x / t.sum) with htf_def
  have htflen : tf.length = ids.length := by simp [htf_def, htlen]
  have key : computeTrust ids rows d maxIter tol = ids.zip tf := by
    unfold computeTrust computeTrustW
    rw [if_neg hlen0]
    simp only [← hw_def, ← ht0_def, ← ht_def, if_pos htotal, ← htf_def]
  refine ⟨?_, ?_, ?_⟩
  · rw [key]
    exact List.map_fst_zip ids tf (le_of_eq htflen.symm)
  · intro p hp
    rw [key] at hp
    have hsnd := (List.of_mem_zip hp).2
    rw [htf_def] at hsnd
    obtain ⟨x, hx, hxe⟩ := List.mem_map.mp hsnd
    rw [← hxe]
    exact div_nonneg (htpos x hx).le htotal.le
  · rw [key, List.map_snd_zip ids tf (le_of_eq htflen), htf_def,
      sum_map_div, div_self (ne_of_gt htotal)]

/-- Round-half-to-even at integer precision, the rounding used by
Python's builtin `round`. -/
def roundHalfEven (q : ℚ) : Int :=
  let f := ⌊q⌋
  if q - f < 1 / 2 then f
  else if 1 / 2 < q - f then f + 1
  else if f % 2 = 0 then f else f + 1

/-- `round(x, 2)` of Python, on exact rationals. -/
def round2 (q : ℚ) : ℚ :=
  ((roundHalfEven (q * 100) : Int) : ℚ) / 100

/-- The dictionary returned by `User.reputation` (models.py lines
265–270).  The field `wwaShare` models the `would_work_again_ratio`
entry. -/
structure Reputation where
  contribution_avg : ℚ
  communication_avg : ℚ
  wwaShare : Option ℚ
  rating_count : ℕ
deriving DecidableEq

/-- The incoming rating rows of a target user (models.py lines 187–196:
`filter(Rating.target_user_id == self.id)`). -/
def incoming (rows : List RatingRow) (u : Int) : List RatingRow :=
  rows.filter (fun r => r.target_user_id == some u)

/-- The rows of one rater's bucket in `by_rater` (models.py lines
198–221 group the incoming rows by `rater_id`, skipping null raters). -/
def bucketRows (inc : List RatingRow) (a : Int) : List RatingRow :=
  inc.filter (fun r => r.rater_id == some a)

/-- The non-null contribution values of a rater's bucket
(`contrib_sum` / `contrib_n` accumulate exactly these). -/
def contribList (inc : List RatingRow) (a : Int) : List ℚ :=
  (bucketRows inc a).filterMap (fun r => r.contribution)

/-- The non-null communication values of a rater's bucket. -/
def commList (inc : List RatingRow) (a : Int) : List ℚ :=
  (bucketRows inc a).filterMap (fun r => r.communication)

/-- The would-work-again indicators of a rater's bucket (`wwa_sum` /
`wwa_n` count every row of the bucket). -/
def wwaList (inc : List RatingRow) (a : Int) : List ℚ :=
  (bucketRows inc a).map (fun r => if r.would_work_again then 1 else 0)

/-- The raters appearing in `by_rater`: the distinct non-null rater ids
of the incoming rows.  A `Finset` models the dictionary key set (the
iteration order is immaterial because the accumulations commute). -/
def ratersOf (inc : List RatingRow) : Finset Int :=
  (inc.filterMap (fun r => r.rater_id)).toFinset

/-- `contrib_num` (models.py lines 223–250): a rater contributes
`w·contrib_avg_r` iff its trust weight is positive (`continue` on
`w <= 0`) and it has at least one non-null contribution. -/
def contribNum (inc : List RatingRow) (w : Int → ℚ) : ℚ :=
  (ratersOf inc).sum (fun a =>
    if 0 < w a ∧ (contribList inc a).length ≠ 0 then
      w a * ((contribList inc a).sum / ((contribList inc a).length : ℚ))
    else 0)

/-- `contrib_den` (models.py line 247). -/
def contribDen (inc : List RatingRow) (w : Int → ℚ) : ℚ :=
  (ratersOf inc).sum (fun a =>
    if 0 < w a ∧ (contribList inc a).length ≠ 0 then w a else 0)

/-- `comm_num` (models.py line 249). -/
def commNum (inc : List RatingRow) (w : Int → ℚ) : ℚ :=
  (ratersOf inc).sum (fun a =>
    if 0 < w a ∧ (commList inc a).length ≠ 0 then
      w a * ((commList inc a).sum / ((commList inc a).length : ℚ))
    else 0)

/-- `comm_den` (models.py line 250). -/
def commDen (inc : List RatingRow) (w : Int → ℚ) : ℚ :=
  (ratersOf inc).sum (fun a =>
    if 0 < w a ∧ (commList inc a).length ≠ 0 then w a else 0)

/-- `wwa_num` (models.py line 252): every bucket with positive weight
contributes `w · wwa_ratio_r`. -/
def wwaNum (inc : List RatingRow) (w : Int → ℚ) : ℚ :=
  (ratersOf inc).sum (fun a =>
    if 0 < w a then
      w a * ((wwaList inc a).sum / ((wwaList inc a).length : ℚ))
    else 0)

/-- `wwa_den` (models.py line 253). -/
def wwaDen (inc : List RatingRow) (w : Int → ℚ) : ℚ :=
  (ratersOf inc).sum (fun a => if 0 < w a then w a else 0)

/-- `User.reputation(trust_scores)` (models.py lines 171–270), with the
trust dictionary modelled as the total function `w` (lookups default to
`0.0`). -/
def reputation (rows : List RatingRow) (w : Int → ℚ) (u : Int) :
    Reputation :=
  { contribution_avg :=
      round2 (if contribDen (incoming rows u) w ≠ 0 then
        contribNum (incoming rows u) w / contribDen (incoming rows u) w
      else 0)
    communication_avg :=
      round2 (if commDen (incoming rows u) w ≠ 0 then
        commNum (incoming rows u) w / commDen (incoming rows u) w
      else 0)
    wwaShare :=
      if wwaDen (incoming rows u) w ≠ 0 then
        some (wwaNum (incoming rows u) w / wwaDen (incoming rows u) w)
      else none
    rating_count := (incoming rows u).length }

/-- `trust_scores.get(rater_id, 0.0)` on the association list returned
by the trust computation. -/
def lookupTrust (m : List (Int × ℚ)) (a : Int) : ℚ :=
  match m.find? (fun p => p.1 == a) with
  | some p => p.2
  | none => 0

/-- The `/api/users/<id>/reputation` pipeline (app.py lines 1502–1508):
compute the trust scores with the default parameters, then the
weighted reputation. -/
def pipelineReputation (ids : List Int) (rows : List RatingRow) (u : Int) :
    Reputation :=
  reputation rows (lookupTrust (computeTrustDefault ids rows)) u

lemma round2_zero : round2 0 = 0 := by
  unfold round2 roundHalfEven
  norm_num

lemma reputation_of_no_incoming (rows : List RatingRow) (w : Int → ℚ)
    (u : Int) (h : incoming rows u = []) :
    reputation rows w u = ⟨0, 0, none, 0⟩ := by
  unfold reputation
  rw [h]
  have hr : ratersOf ([] : List RatingRow) = ∅ := rfl
  simp [contribDen, commDen, wwaDen, contribNum, commNum, wwaNum, hr,
    round2_zero]

lemma outSum_zero_w (ids : List Int) (a : Int) :
    outSum ids (fun _ _ => (0:ℚ)) a = 0 := by
  simp [outSum]

lemma sum_map_uniform (ids : List Int) (hids : ids ≠ []) :
    (ids.map (fun _ => 1 / (ids.length : ℚ))).sum = 1 := by
  rw [List.map_const', List.sum_replicate, nsmul_eq_mul]
  have h : (ids.length : ℚ) ≠ 0 := by
    have := List.length_pos.mpr hids
    exact_mod_cast Nat.pos_iff_ne_zero.mp this
  field_simp

lemma zip_map_self (ids : List Int) (f : Int → ℚ) :
    ids.zip (ids.map f) = ids.map (fun u => (u, f u)) := by
  induction ids with
  | nil => rfl
  | cons a l ih => simp [ih]

/-- With an all-zero edge-weight function a step maps any vector of
matching length to the vector with constant entry
`(1-d)/n + d·(Σt)/n`. -/
lemma trustStep_zero_w (ids : List Int) (d : ℚ) (t : List ℚ)
    (ht : t.length = ids.length) :
    trustStep ids (fun _ _ => 0) d t =
      ids.map (fun _ =>
        (1 - d) * (1 / (ids.length : ℚ)) + d * (t.sum / (ids.length : ℚ))) := by
  simp only [trustStep]
  have hfil : (ids.zip t).filter
      (fun p => decide (outSum ids (fun _ _ => (0:ℚ)) p.1 ≤ 0)) = ids.zip t := by
    apply List.filter_eq_self.mpr
    intro p _
    simp [outSum_zero_w]
  rw [hfil, List.map_snd_zip ids t (le_of_eq ht)]
  apply List.map_congr_left
  intro j _
  have hmain : ((ids.zip t).map (fun p =>
      if 0 < outSum ids (fun _ _ => (0:ℚ)) p.1 then
        0 * (0 / outSum ids (fun _ _ => (0:ℚ)) p.1) * p.2
      else 0)).sum = 0 := by
    simp [outSum_zero_w]
  simp only [outSum_zero_w, lt_self_iff_false, if_false]
  simp

lemma l1diff_self (t : List ℚ) : l1diff t t = 0 := by
  unfold l1diff
  induction t with
  | nil => rfl
  | cons a l ih => simp_all [List.zip_cons_cons, l1diff]

lemma trustPairMean_zero_of_no_eff (ids : List Int) (rows : List RatingRow)
    (heff : ∀ r ∈ rows, trustEff ids r = false) :
    trustPairMean ids rows = fun _ _ => 0 := by
  funext a b
  have h : trustPairRows ids rows a b = [] := by
    apply List.filter_eq_nil_iff.mpr
    intro r hr
    simp [heff r hr]
  simp [trustPairMean, trustPairSum, h, zero_div]

/-- With no effective edges the computation returns the uniform vector
`1/n` for every user, for any damping, fuel and positive tolerance. -/
lemma computeTrust_uniform (ids : List Int) (rows : List RatingRow)
    (d : ℚ) (maxIter : ℕ) (tol : ℚ) (hids : ids ≠ []) (htol : 0 < tol)
    (heff : ∀ r ∈ rows, trustEff ids r = false) :
    computeTrust ids rows d maxIter tol =
      ids.map (fun u => (u, 1 / (ids.length : ℚ))) := by
  have hlen0 : ids.length ≠ 0 := fun h => hids (List.length_eq_zero.mp h)
  set t0 : List ℚ := ids.map (fun _ => 1 / (ids.length : ℚ)) with ht0_def
  have ht0len : t0.length = ids.length := by simp [ht0_def]
  have ht0sum : t0.sum = 1 := sum_map_uniform ids hids
  have hstep : trustStep ids (fun _ _ => 0) d t0 = t0 := by
    rw [trustStep_zero_w ids d t0 ht0len, ht0sum, ht0_def]
    apply List.map_congr_left
    intro j _
    have h : (ids.length : ℚ) ≠ 0 := by exact_mod_cast hlen0
    field_simp
  have hiter : ∀ k, trustIter ids (fun _ _ => 0) d tol k t0 = t0 := by
    intro k
    cases k with
    | zero => rfl
    | succ k =>
        simp only [trustIter, hstep, l1diff_self, if_pos htol]
  unfold computeTrust
  rw [trustPairMean_zero_of_no_eff ids rows heff]
  unfold computeTrustW
  rw [if_neg hlen0]
  simp only [← ht0_def, hiter maxIter, ht0sum]
  rw [if_pos (by norm_num : (0:ℚ) < 1)]
  have hdiv : t0.map (fun x => x / 1) = t0 := by simp
  rw [hdiv, ht0_def, zip_map_self]

lemma localTrust_congr {r r' : RatingRow}
    (h1 : r'.contribution = r.contribution)
    (h2 : r'.communication = r.communication)
    (h3 : r'.would_work_again = r.would_work_again) :
    localTrust r' = localTrust r := by
  unfold localTrust
  rw [h1, h2, h3]

lemma sum_eq_length_mul (l : List ℚ) (c : ℚ) (h : ∀ x ∈ l, x = c) :
    l.sum = l.length * c := by
  induction l with
  | nil => simp
  | cons x xs ih =>
      rw [List.sum_cons, h x (List.mem_cons_self x xs),
        ih (fun y hy => h y (List.mem_cons_of_mem x hy)), List.length_cons]
      push_cast
      ring

/-- Appending one more copy of the common value of a non-empty constant
list does not change its average. -/
lemma avg_append_const (l : List ℚ) (c : ℚ) (h : ∀ x ∈ l, x = c)
    (hne : l ≠ []) :
    (l ++ [c]).sum / (((l ++ [c]).length : ℕ) : ℚ) =
      l.sum / ((l.length : ℕ) : ℚ) := by
  have hlen : l.length ≠ 0 := fun h0 => hne (List.length_eq_zero.mp h0)
  have hlQ : ((l.length : ℕ) : ℚ) ≠ 0 := by exact_mod_cast hlen
  rw [List.sum_append, List.length_append, sum_eq_length_mul l c h]
  simp only [List.sum_singleton, List.length_singleton]
  push_cast
  field_simp
  ring

/-- The trust computation depends on the rating rows only through the
collapsed pair-mean function. -/
lemma computeTrust_rows_congr (ids : List Int)
    (rows1 rows2 : List RatingRow) (d : ℚ) (maxIter : ℕ) (tol : ℚ)
    (h : trustPairMean ids rows1 = trustPairMean ids rows2) :
    computeTrust ids rows1 d maxIter tol =
      computeTrust ids rows2 d maxIter tol := by
  unfold computeTrust
  rw [h]

/-- Appending an exact duplicate of a row whose (rater, target) pair is
value-homogeneous leaves every collapsed pair mean unchanged. -/
lemma trustPairMean_append_dup (ids : List Int) (rows : List RatingRow)
    (r : RatingRow) (a b : Int) (hmem : r ∈ rows)
    (hra : r.rater_id = some a) (htg : r.target_user_id = some b)
    (hsame : ∀ r' ∈ rows, r'.rater_id = some a →
      r'.target_user_id = some b →
      r'.contribution = r.contribution ∧
        r'.communication = r.communication ∧
        r'.would_work_again = r.would_work_again) :
    trustPairMean ids (rows ++ [r]) = trustPairMean ids rows := by
  funext x y
  unfold trustPairMean trustPairSum trustPairCount trustPairRows
  rw [List.filter_append]
  by_cases hp : (trustEff ids r && r.rater_id == some x &&
      r.target_user_id == some y) = true
  · have hax : a = x := by
      have h2 : (r.rater_id == some x) = true := by
        simp only [Bool.and_eq_true] at hp
        exact hp.1.2
      rw [hra] at h2
      simpa using h2
    have hby : b = y := by
      have h2 : (r.target_user_id == some y) = true := by
        simp only [Bool.and_eq_true] at hp
        exact hp.2
      rw [htg] at h2
      simpa using h2
    subst hax
    subst hby
    have hfr : List.filter (fun r' => trustEff ids r' &&
        r'.rater_id == some a && r'.target_user_id == some b) [r] = [r] := by
      simp [List.filter_singleton, hp]
    rw [hfr]
    set L := rows.filter (fun r' => trustEff ids r' &&
      r'.rater_id == some a && r'.target_user_id == some b) with hL
    have hrL : r ∈ L := List.mem_filter.mpr ⟨hmem, hp⟩
    have hLne : L ≠ [] := fun h0 => by
      rw [h0] at hrL
      exact List.not_mem_nil r hrL
    have hall : ∀ s ∈ L.map localTrust, s = localTrust r := by
      intro s hs
      obtain ⟨r', hr', rfl⟩ := List.mem_map.mp hs
      have hr'rows : r' ∈ rows := List.mem_of_mem_filter hr'
      have hpr' := List.of_mem_filter hr'
      simp only [Bool.and_eq_true, beq_iff_eq] at hpr'
      obtain ⟨h1, h2, h3⟩ :=
        hsame r' hr'rows hpr'.1.2 hpr'.2
      exact localTrust_congr h1 h2 h3
    have hmapne : L.map localTrust ≠ [] := by
      intro h0
      exact hLne (List.map_eq_nil_iff.mp h0)
    have havg := avg_append_const (L.map localTrust) (localTrust r) hall hmapne
    rw [List.map_append]
    simpa [List.length_append, List.length_map] using havg
  · have hfr : List.filter (fun r' => trustEff ids r' &&
        r'.rater_id == some x && r'.target_user_id == some y) [r] = [] := by
      simp [List.filter_singleton, hp]
    rw [hfr, List.append_nil]

lemma ite_avg_congr (w : ℚ) (l l' : List ℚ)
    (h : l' = l ∨ ∃ c, l' = l ++ [c] ∧ (∀ x ∈ l, x = c) ∧ l ≠ []) :
    ((if 0 < w ∧ l'.length ≠ 0 then w * (l'.sum / (l'.length : ℚ)) else 0) =
      (if 0 < w ∧ l.length ≠ 0 then w * (l.sum / (l.length : ℚ)) else 0)) ∧
    ((if 0 < w ∧ l'.length ≠ 0 then w else 0) =
      (if 0 < w ∧ l.length ≠ 0 then w else 0)) := by
  rcases h with rfl | ⟨c, rfl, hall, hne⟩
  · exact ⟨rfl, rfl⟩
  · have hlen : l.length ≠ 0 := fun h0 => hne (List.length_eq_zero.mp h0)
    have hlen' : (l ++ [c]).length ≠ 0 := by
      simp [List.length_append]
    have havg := avg_append_const l c hall hne
    constructor
    · by_cases hw : 0 < w
      · rw [if_pos ⟨hw, hlen'⟩, if_pos ⟨hw, hlen⟩, havg]
      · rw [if_neg (fun hh => hw hh.1), if_neg (fun hh => hw hh.1)]
    · by_cases hw : 0 < w
      · rw [if_pos ⟨hw, hlen'⟩, if_pos ⟨hw, hlen⟩]
      · rw [if_neg (fun hh => hw hh.1), if_neg (fun hh => hw hh.1)]

lemma ite_wwa_congr (w : ℚ) (l l' : List ℚ)
    (h : l' = l ∨ ∃ c, l' = l ++ [c] ∧ (∀ x ∈ l, x = c) ∧ l ≠ []) :
    (if 0 < w then w * (l'.sum / (l'.length : ℚ)) else 0) =
      (if 0 < w then w * (l.sum / (l.length : ℚ)) else 0) := by
  rcases h with rfl | ⟨c, rfl, hall, hne⟩
  · rfl
  · rw [avg_append_const l c hall hne]

/-- Appending an exact duplicate of an incoming row whose rater's rows
(for this target) are value-homogeneous leaves every reputation field
unchanged except `rating_count`, which grows by one. -/
lemma reputation_append_dup (rows : List RatingRow) (w : Int → ℚ)
    (r : RatingRow) (a b : Int) (hmem : r ∈ rows)
    (hra : r.rater_id = some a) (htg : r.target_user_id = some b)
    (hsame : ∀ r' ∈ rows, r'.rater_id = some a →
      r'.target_user_id = some b →
      r'.contribution = r.contribution ∧
        r'.communication = r.communication ∧
        r'.would_work_again = r.would_work_again) :
    reputation (rows ++ [r]) w b =
      { reputation rows w b with
        rating_count := (reputation rows w b).rating_count + 1 } := by
  have hinc : incoming (rows ++ [r]) b = incoming rows b ++ [r] := by
    simp [incoming, List.filter_append, List.filter_singleton, htg]
  set inc := incoming rows b with hinc_def
  have hincsub : ∀ r' ∈ inc, r' ∈ rows := by
    intro r' hr'
    exact List.mem_of_mem_filter hr'
  have hrinc : r ∈ inc := by
    rw [hinc_def]
    exact List.mem_filter.mpr ⟨hmem, by simp [incoming, htg]⟩
  have hainc : a ∈ ratersOf inc := by
    unfold ratersOf
    rw [List.mem_toFinset]
    exact List.mem_filterMap.mpr ⟨r, hrinc, hra⟩
  have hraters : ratersOf (inc ++ [r]) = ratersOf inc := by
    unfold ratersOf
    rw [List.filterMap_append, List.toFinset_append]
    have h1 : List.filterMap (fun r' => r'.rater_id) [r] = [a] := by
      simp [hra]
    rw [h1]
    apply Finset.union_eq_left.mpr
    intro x hx
    simp only [List.toFinset_cons, List.toFinset_nil,
      insert_emptyc_eq, Finset.mem_singleton] at hx
    subst hx
    unfold ratersOf at hainc
    exact hainc
  have hbucket : ∀ x, x ≠ a → bucketRows (inc ++ [r]) x = bucketRows inc x := by
    intro x hx
    unfold bucketRows
    rw [List.filter_append, List.filter_singleton]
    have : (r.rater_id == some x) = false := by
      rw [hra]
      simp [Ne.symm hx]
    rw [this]
    simp
  have hbucketa : bucketRows (inc ++ [r]) a = bucketRows inc a ++ [r] := by
    unfold bucketRows
    rw [List.filter_append, List.filter_singleton]
    have : (r.rater_id == some a) = true := by rw [hra]; simp
    rw [this]
    simp
  have hrba : r ∈ bucketRows inc a := by
    unfold bucketRows
    exact List.mem_filter.mpr ⟨hrinc, by rw [hra]; simp⟩
  -- constraints on bucket members for rater a
  have hvals : ∀ r' ∈ bucketRows inc a,
      r'.contribution = r.contribution ∧
        r'.communication = r.communication ∧
        r'.would_work_again = r.would_work_again := by
    intro r' hr'
    have h1 : r' ∈ inc := List.mem_of_mem_filter hr'
    have h2 := List.of_mem_filter hr'
    simp only [beq_iff_eq] at h2
    have h3 := List.of_mem_filter h1
    simp only [beq_iff_eq] at h3
    exact hsame r' (hincsub r' h1) h2 h3
  have hcontrib : ∀ x ∈ ratersOf inc,
      contribList (inc ++ [r]) x = contribList inc x ∨
        ∃ c, contribList (inc ++ [r]) x = contribList inc x ++ [c] ∧
          (∀ q ∈ contribList inc x, q = c) ∧ contribList inc x ≠ [] := by
    intro x _
    by_cases hx : x = a
    · subst hx
      unfold contribList
      rw [hbucketa, List.filterMap_append]
      cases hc : r.contribution with
      | none => left; simp [hc]
      | some v =>
          right
          refine ⟨v, by simp [hc], ?_, ?_⟩
          · intro q hq
            obtain ⟨r', hr', hq'⟩ := List.mem_filterMap.mp hq
            have := (hvals r' hr').1
            rw [hc] at this
            rw [this] at hq'
            exact (Option.some_inj.mp hq').symm
          · intro h0
            have : v ∈ List.filterMap (fun r' => r'.contribution)
                (bucketRows inc x) :=
              List.mem_filterMap.mpr ⟨r, hrba, by rw [hc]⟩
            rw [h0] at this
            exact List.not_mem_nil v this
    · left
      unfold contribList
      rw [hbucket x hx]
  have hcomm : ∀ x ∈ ratersOf inc,
      commList (inc ++ [r]) x = commList inc x ∨
        ∃ c, commList (inc ++ [r]) x = commList inc x ++ [c] ∧
          (∀ q ∈ commList inc x, q = c) ∧ commList inc x ≠ [] := by
    intro x _
    by_cases hx : x = a
    · subst hx
      unfold commList
      rw [hbucketa, List.filterMap_append]
      cases hc : r.communication with
      | none => left; simp [hc]
      | some v =>
          right
          refine ⟨v, by simp [hc], ?_, ?_⟩
          · intro q hq
            obtain ⟨r', hr', hq'⟩ := List.mem_filterMap.mp hq
            have := (hvals r' hr').2.1
            rw [hc] at this
            rw [this] at hq'
            exact (Option.some_inj.mp hq').symm
          · intro h0
            have : v ∈ List.filterMap (fun r' => r'.communication)
                (bucketRows inc x) :=
              List.mem_filterMap.mpr ⟨r, hrba, by rw [hc]⟩
            rw [h0] at this
            exact List.not_mem_nil v this
    · left
      unfold commList
      rw [hbucket x hx]
  have hwwa : ∀ x ∈ ratersOf inc,
      wwaList (inc ++ [r]) x = wwaList inc x ∨
        ∃ c, wwaList (inc ++ [r]) x = wwaList inc x ++ [c] ∧
          (∀ q ∈ wwaList inc x, q = c) ∧ wwaList inc x ≠ [] := by
    intro x _
    by_cases hx : x = a
    · subst hx
      right
      refine ⟨if r.would_work_again then 1 else 0, ?_, ?_, ?_⟩
      · unfold wwaList
        rw [hbucketa, List.map_append]
        simp
      · intro q hq
        obtain ⟨r', hr', rfl⟩ := List.mem_map.mp hq
        rw [(hvals r' hr').2.2]
      · intro h0
        have : (if r.would_work_again then (1:ℚ) else 0) ∈ wwaList inc x :=
          List.mem_map.mpr ⟨r, hrba, rfl⟩
        rw [h0] at this
        exact List.not_mem_nil _ this
    · left
      unfold wwaList
      rw [hbucket x hx]
  unfold reputation
  rw [hinc, ← hinc_def]
  have hcn : contribNum (inc ++ [r]) w = contribNum inc w := by
    unfold contribNum
    rw [hraters]
    exact Finset.sum_congr rfl (fun x hx =>
      (ite_avg_congr (w x) _ _ (hcontrib x hx)).1)
  have hcd : contribDen (inc ++ [r]) w = contribDen inc w := by
    unfold contribDen
    rw [hraters]
    exact Finset.sum_congr rfl (fun x hx =>
      (ite_avg_congr (w x) _ _ (hcontrib x hx)).2)
  have hkn : commNum (inc ++ [r]) w = commNum inc w := by
    unfold commNum
    rw [hraters]
    exact Finset.sum_congr rfl (fun x hx =>
      (ite_avg_congr (w x) _ _ (hcomm x hx)).1)
  have hkd : commDen (inc ++ [r]) w = commDen inc w := by
    unfold commDen
    rw [hraters]
    exact Finset.sum_congr rfl (fun x hx =>
      (ite_avg_congr (w x) _ _ (hcomm x hx)).2)
  have hwn : wwaNum (inc ++ [r]) w = wwaNum inc w := by
    unfold wwaNum
    rw [hraters]
    exact Finset.sum_congr rfl (fun x hx =>
      ite_wwa_congr (w x) _ _ (hwwa x hx))
  have hwd : wwaDen (inc ++ [r]) w = wwaDen inc w := by
    unfold wwaDen
    rw [hraters]
  simp [hcn, hcd, hkn, hkd, hwn, hwd, List.length_append]

/-- Self-rating rows never pass the effectiveness filter, so appending
one changes no collapsed pair mean. -/
lemma trustPairMean_append_self (ids : List Int) (rows : List RatingRow)
    (r : RatingRow) (a : Int) (hra : r.rater_id = some a)
    (htg : r.target_user_id = some a) :
    trustPairMean ids (rows ++ [r]) = trustPairMean ids rows := by
  funext x y
  unfold trustPairMean trustPairSum trustPairCount trustPairRows
  rw [List.filter_append]
  have heff : trustEff ids r = false := by
    simp [trustEff, hra, htg]
  have hfr : List.filter (fun r' => trustEff ids r' &&
      r'.rater_id == some x && r'.target_user_id == some y) [r] = [] := by
    simp [List.filter_singleton, heff]
  rw [hfr, List.append_nil]

/-- A row targeting a different user leaves that user's reputation
untouched. -/
lemma reputation_append_other (rows : List RatingRow) (w : Int → ℚ)
    (r : RatingRow) (u : Int) (h : r.target_user_id ≠ some u) :
    reputation (rows ++ [r]) w u = reputation rows w u := by
  have hb : (r.target_user_id == some u) = false := by
    simpa using h
  have hinc : incoming (rows ++ [r]) u = incoming rows u := by
    simp [incoming, List.filter_append, List.filter_singleton, hb]
  unfold reputation
  rw [hinc]

/-- Effectiveness filter of the `/api/graph` edge collapser (app.py
lines 1544–1556): non-null endpoints, no self-edge, positive local
trust.  Unlike the trust computation it does not check that the ids
belong to existing users. -/
def graphEff (r : RatingRow) : Bool :=
  match r.rater_id, r.target_user_id with
  | some a, some b => a != b && decide (0 < localTrust r)
  | _, _ => false

/-- Rows feeding `pair_local_sum`/`pair_local_count` of `/api/graph`
for one ordered pair (app.py lines 1558–1560). -/
def graphPairRows (rows : List RatingRow) (a b : Int) : List RatingRow :=
  rows.filter (fun r =>
    graphEff r && r.rater_id == some a && r.target_user_id == some b)

/-- `pair_local_sum[key]` of `/api/graph`. -/
def graphPairSum (rows : List RatingRow) (a b : Int) : ℚ :=
  ((graphPairRows rows a b).map localTrust).sum

/-- `pair_local_count[key]` of `/api/graph`; this is the `count` field
of an emitted edge. -/
def graphPairCount (rows : List RatingRow) (a b : Int) : ℕ :=
  (graphPairRows rows a b).length

/-- The `weight` field of an emitted edge: `s / n` (app.py line 1608);
`0` for pairs with no effective rows (no edge emitted). -/
def graphPairMean (rows : List RatingRow) (a b : Int) : ℚ :=
  graphPairSum rows a b / (graphPairCount rows a b : ℚ)

/-- Whether both endpoints of a row are ids of existing users (the
`idx_by_user_id.get` checks of models.py lines 107–110). -/
def knownB (ids : List Int) (r : RatingRow) : Bool :=
  (match r.rater_id with
   | some a => ids.contains a
   | none => false) &&
  (match r.target_user_id with
   | some b => ids.contains b
   | none => false)

/-- Modelled from the spec (§3, edge-collapsing invariant): all rating
rows of an ordered pair, across all teams, with no further filtering. -/
def allPairRows (rows : List RatingRow) (a b : Int) : List RatingRow :=
  rows.filter (fun r =>
    r.rater_id == some a && r.target_user_id == some b)

/-- Modelled from the spec (§3): the arithmetic mean of the per-row
normalized local trusts across all rating rows of the pair. -/
def specPairMeanAll (rows : List RatingRow) (a b : Int) : ℚ :=
  ((allPairRows rows a b).map localTrust).sum /
    ((allPairRows rows a b).length : ℚ)

/-- The rating rows of an ordered pair that have positive local trust. -/
def posPairRows (rows : List RatingRow) (a b : Int) : List RatingRow :=
  rows.filter (fun r =>
    r.rater_id == some a && r.target_user_id == some b &&
      decide (0 < localTrust r))

/-- The arithmetic mean of the local trusts over the pair's
positive-local rows. -/
def posPairMean (rows : List RatingRow) (a b : Int) : ℚ :=
  ((posPairRows rows a b).map localTrust).sum /
    ((posPairRows rows a b).length : ℚ)

/-- The trust collapse filter is the graph collapse filter plus the
known-endpoints check. -/
lemma trustEff_eq_graphEff_and_known (ids : List Int) (r : RatingRow) :
    trustEff ids r = (graphEff r && knownB ids r) := by
  unfold trustEff graphEff knownB
  cases hr : r.rater_id with
  | none => simp
  | some x =>
      cases ht : r.target_user_id with
      | none => simp
      | some y =>
          simp only []
          cases x != y <;> cases ids.contains x <;> cases ids.contains y <;>
            cases decide (0 < localTrust r) <;> rfl

lemma trustPairRows_eq_filter_known (ids : List Int)
    (rows : List RatingRow) (a b : Int) :
    trustPairRows ids rows a b =
      graphPairRows (rows.filter (knownB ids)) a b := by
  unfold trustPairRows graphPairRows
  rw [List.filter_filter]
  apply List.filter_congr
  intro r _
  rw [trustEff_eq_graphEff_and_known]
  cases graphEff r <;> cases knownB ids r <;>
    cases r.rater_id == some a <;> cases r.target_user_id == some b <;> rfl

/-- For a pair with distinct endpoints, the graph collapser keeps
exactly the pair's positive-local rows. -/
lemma graphPairRows_eq_posPairRows (rows : List RatingRow) (a b : Int)
    (hab : a ≠ b) :
    graphPairRows rows a b = posPairRows rows a b := by
  unfold graphPairRows posPairRows
  apply List.filter_congr
  intro r _
  unfold graphEff
  cases hr : r.rater_id with
  | none => simp
  | some x =>
      cases ht : r.target_user_id with
      | none => simp
      | some y =>
          simp only []
          by_cases hx : x = a
          · by_cases hy : y = b
            · subst hx
              subst hy
              have hne : (x != y) = true := by
                simpa using hab
              simp [hne]
            · have h2 : (some y == some b) = false := by
                simpa using hy
              simp [h2]
          · have h1 : (some x == some a) = false := by
              simpa using hx
            simp [h1]

/-- Modelled from the spec (§4.4): the raters that enter the weighted
contribution mean — positive trust weight and at least one non-null
contribution. -/
def specContribRaters (inc : List RatingRow) (w : Int → ℚ) : Finset Int :=
  (ratersOf inc).filter (fun a => 0 < w a ∧ (contribList inc a).length ≠ 0)

/-- Modelled from the spec (§4.4):
`contribution_avg = Σ_r w_r · contrib_avg_r / Σ_r w_r` over
`specContribRaters`, `0` when the denominator is `0`, rounded to two
decimal places. -/
def specContributionAvg (inc : List RatingRow) (w : Int → ℚ) : ℚ :=
  round2 (if (specContribRaters inc w).sum w ≠ 0 then
    ((specContribRaters inc w).sum (fun a =>
      w a * ((contribList inc a).sum / ((contribList inc a).length : ℚ)))) /
      (specContribRaters inc w).sum w
  else 0)

/-- Modelled from the spec (§4.4): the symmetric notion for
communication. -/
def specCommRaters (inc : List RatingRow) (w : Int → ℚ) : Finset Int :=
  (ratersOf inc).filter (fun a => 0 < w a ∧ (commList inc a).length ≠ 0)

/-- Modelled from the spec (§4.4): `communication_avg`, symmetric to
`specContributionAvg`. -/
def specCommunicationAvg (inc : List RatingRow) (w : Int → ℚ) : ℚ :=
  round2 (if (specCommRaters inc w).sum w ≠ 0 then
    ((specCommRaters inc w).sum (fun a =>
      w a * ((commList inc a).sum / ((commList inc a).length : ℚ)))) /
      (specCommRaters inc w).sum w
  else 0)

/-- Modelled from the spec (§4.4): the raters entering the
would-work-again mean — positive trust weight (every rater has at
least one row). -/
def specWwaRaters (inc : List RatingRow) (w : Int → ℚ) : Finset Int :=
  (ratersOf inc).filter (fun a => 0 < w a)

/-- Modelled from the spec (§4.4):
`would_work_again_ratio = Σ_r w_r · wwa_ratio_r / Σ_r w_r`, null when
the denominator is `0`. -/
def specWwaShare (inc : List RatingRow) (w : Int → ℚ) : Option ℚ :=
  if (specWwaRaters inc w).sum w ≠ 0 then
    some (((specWwaRaters inc w).sum (fun a =>
      w a * ((wwaList inc a).sum / ((wwaList inc a).length : ℚ)))) /
      (specWwaRaters inc w).sum w)
  else none

/-- A rating row as inserted by the submission handlers (team, rater
and target are always present there). -/
def mkRating (t rt tg : Int) (c k : Option ℚ) (w : Bool) : RatingRow :=
  ⟨some t, some rt, some tg, c, k, w⟩

/-- The `Rating.query.filter_by(team_id=…, rater_id=…,
target_user_id=…)` predicate of the submission handlers. -/
def matchesTriple (t rt tg : Int) (r : RatingRow) : Bool :=
  r.team_id == some t && r.rater_id == some rt &&
    r.target_user_id == some tg

/-- The rewrite branch of `rate_member_page` (app.py lines 846–855):
the first matching row is overwritten with the new values and every
further matching row is deleted; everything else is untouched. -/
def replaceFirstDropRest (p : RatingRow → Bool) (nw : RatingRow) :
    List RatingRow → List RatingRow
  | [] => []
  | r :: rest =>
      if p r then nw :: rest.filter (fun x => !p x)
      else r :: replaceFirstDropRest p nw rest

/-- The row-set effect of `rate_member_page` (app.py lines 843–869):
replace when a row for the (team, rater, target) triple exists,
otherwise insert a fresh row. -/
def pageSubmitRatings (rows : List RatingRow) (t rt tg : Int)
    (c k : ℚ) (w : Bool) : List RatingRow :=
  if rows.any (matchesTriple t rt tg) then
    replaceFirstDropRest (matchesTriple t rt tg)
      (mkRating t rt tg (some c) (some k) w) rows
  else rows ++ [mkRating t rt tg (some c) (some k) w]

/-- The JSON API handler `rate_member` (app.py lines 1470–1499): after
the finished/membership/self checks it always inserts a fresh row,
never replacing an existing one. -/
def apiRateMember (finished : Bool) (memberIds : List Int)
    (rows : List RatingRow) (t rt tg : Int) (c k : ℚ) (w : Bool) :
    Option (List RatingRow) :=
  if !finished then none
  else if !(memberIds.contains rt && memberIds.contains tg) then none
  else if rt == tg then none
  else some (rows ++ [mkRating t rt tg (some c) (some k) w])

/-- The number of stored rows for one (team, rater, target) triple. -/
def countTriple (rows : List RatingRow) (t rt tg : Int) : ℕ :=
  (rows.filter (matchesTriple t rt tg)).length

lemma matchesTriple_mkRating (t rt tg : Int) (c k : Option ℚ) (w : Bool) :
    matchesTriple t rt tg (mkRating t rt tg c k w) = true := by
  simp [matchesTriple, mkRating]

/-- A row matches at most one triple. -/
lemma matchesTriple_unique (t rt tg t' rt' tg' : Int) (r : RatingRow)
    (hne : (t, rt, tg) ≠ (t', rt', tg'))
    (h : matchesTriple t' rt' tg' r = true) :
    matchesTriple t rt tg r = false := by
  simp only [matchesTriple, Bool.and_eq_true, beq_iff_eq] at h
  obtain ⟨⟨h1, h2⟩, h3⟩ := h
  unfold matchesTriple
  rw [h1, h2, h3]
  by_contra hcon
  rw [Bool.not_eq_false] at hcon
  simp only [Bool.and_eq_true, beq_iff_eq, Option.some_inj] at hcon
  obtain ⟨⟨g1, g2⟩, g3⟩ := hcon
  exact hne (by rw [g1, g2, g3])

lemma filter_replaceFirstDropRest (p : RatingRow → Bool) (nw : RatingRow)
    (hnw : p nw = true) :
    ∀ l : List RatingRow, l.any p = true →
      (replaceFirstDropRest p nw l).filter p = [nw] := by
  intro l
  induction l with
  | nil => intro h; simp at h
  | cons r rest ih =>
      intro _
      unfold replaceFirstDropRest
      by_cases hr : p r = true
      · rw [if_pos hr]
        rw [List.filter_cons_of_pos hnw]
        have : (rest.filter (fun x => !p x)).filter p = [] := by
          rw [List.filter_filter]
          apply List.filter_eq_nil_iff.mpr
          intro x _
          cases hpx : p x <;> simp [hpx]
        rw [this]
      · rw [if_neg hr]
        rw [List.filter_cons_of_neg (by simpa using hr)]
        apply ih
        by_cases hrest : rest.any p = true
        · exact hrest
        · exfalso
          have := List.any_eq_true.mp ‹(r :: rest).any p = true›
          obtain ⟨x, hx, hpx⟩ := this
          rcases List.mem_cons.mp hx with rfl | hx'
          · exact hr hpx
          · exact hrest (List.any_eq_true.mpr ⟨x, hx', hpx⟩)

lemma filter_q_replaceFirstDropRest (p q : RatingRow → Bool)
    (nw : RatingRow) (hq : q nw = false)
    (hdisj : ∀ x, q x = true → p x = false) :
    ∀ l : List RatingRow,
      (replaceFirstDropRest p nw l).filter q = l.filter q := by
  intro l
  induction l with
  | nil => rfl
  | cons r rest ih =>
      unfold replaceFirstDropRest
      by_cases hr : p r = true
      · rw [if_pos hr]
        rw [List.filter_cons_of_neg (by simp [hq])]
        have hqr : q r = false := by
          cases hqr : q r
          · rfl
          · exact absurd (hdisj r hqr) (by simp [hr])
        rw [List.filter_cons_of_neg (by simp [hqr])]
        rw [List.filter_filter]
        apply List.filter_congr
        intro x _
        cases hqx : q x
        · simp
        · simp [hdisj x hqx]
      · rw [if_neg hr]
        cases hqr : q r
        · rw [List.filter_cons_of_neg (by simp [hqr]),
            List.filter_cons_of_neg (by simp [hqr])]
          exact ih
        · rw [List.filter_cons_of_pos hqr, List.filter_cons_of_pos hqr, ih]

/-- One lobby as seen by the listing endpoints: the lobby row plus its
(first) team's lock flag and member ids. -/
structure LobbyInfo where
  lid : Int
  leader_id : Option Int
  finished : Bool
  team_locked : Bool
  members : List Int
deriving DecidableEq

/-- `_aggregate_team_rep_0_to_10` (app.py lines 118–124): `0` for an
empty team, otherwise the member scores' mean rounded to two
decimals. -/
def aggTeamRep (memberIds : List Int) (score : Int → ℚ) : ℚ :=
  if memberIds.isEmpty then 0
  else round2 ((memberIds.map score).sum / (memberIds.length : ℚ))

/-- Whether `role` is `None` for the viewer (app.py lines 504–510):
neither (truthy) leader nor member. -/
def roleIsNone (viewer : Int) (l : LobbyInfo) : Bool :=
  !((match l.leader_id with
     | some lid => lid != 0 && viewer == lid
     | none => false) || l.members.contains viewer)

/-- One annotated lobby dictionary of `lobbies_page` / `lobbies`
(app.py lines 496–524): the role flag, `team_reputation`,
`rep_distance` (rounded absolute difference) and `_order` (the index
in the baseline created_at-descending order). -/
structure AnnotLobby where
  info : LobbyInfo
  role_is_none : Bool
  team_reputation : ℚ
  rep_distance : ℚ
  ord : ℕ
deriving DecidableEq

/-- The annotation pass over the baseline-ordered lobby list, given the
scalar rep scores (`rep_score_by_id`, with missing ids scoring `0`). -/
def annotateLobbies (viewer : Int) (score : Int → ℚ)
    (qs : List LobbyInfo) : List AnnotLobby :=
  qs.enum.map (fun p =>
    { info := p.2
      role_is_none := roleIsNone viewer p.2
      team_reputation := aggTeamRep p.2.members score
      rep_distance := round2 |aggTeamRep p.2.members score - score viewer|
      ord := p.1 })

/-- `_is_joinable` (app.py lines 527–532). -/
def joinableB (l : AnnotLobby) : Bool :=
  l.role_is_none && !l.info.finished && !l.info.team_locked

/-- The first component of `_sort_key` (app.py line 535). -/
def lobbyBucket (l : AnnotLobby) : ℕ :=
  if joinableB l then 0 else 1

/-- The lexicographic order of `_sort_key` (app.py lines 534–538):
`(joinable? 0 : 1, rep_distance, _order)` ascending. -/
def lobbyLE (x y : AnnotLobby) : Prop :=
  lobbyBucket x < lobbyBucket y ∨
    (lobbyBucket x = lobbyBucket y ∧
      (x.rep_distance < y.rep_distance ∨
        (x.rep_distance = y.rep_distance ∧ x.ord ≤ y.ord)))

instance instDecLobbyLE : DecidableRel lobbyLE := fun x y => by
  unfold lobbyLE
  infer_instance

instance instTotalLobbyLE : IsTotal AnnotLobby lobbyLE := ⟨by
  intro x y
  unfold lobbyLE
  rcases lt_trichotomy (lobbyBucket x) (lobbyBucket y) with h | h | h
  · exact Or.inl (Or.inl h)
  · rcases lt_trichotomy x.rep_distance y.rep_distance with h2 | h2 | h2
    · exact Or.inl (Or.inr ⟨h, Or.inl h2⟩)
    · rcases Nat.le_total x.ord y.ord with h3 | h3
      · exact Or.inl (Or.inr ⟨h, Or.inr ⟨h2, h3⟩⟩)
      · exact Or.inr (Or.inr ⟨h.symm, Or.inr ⟨h2.symm, h3⟩⟩)
    · exact Or.inr (Or.inr ⟨h.symm, Or.inl h2⟩)
  · exact Or.inr (Or.inl h)⟩

instance instTransLobbyLE : IsTrans AnnotLobby lobbyLE := ⟨by
  intro x y z hxy hyz
  unfold lobbyLE at hxy hyz ⊢
  rcases hxy with h1 | ⟨h1, h2⟩ <;> rcases hyz with h3 | ⟨h3, h4⟩
  · exact Or.inl (h1.trans h3)
  · exact Or.inl (lt_of_lt_of_le h1 (le_of_eq h3))
  · exact Or.inl (lt_of_le_of_lt (le_of_eq h1) h3)
  · refine Or.inr ⟨h1.trans h3, ?_⟩
    rcases h2 with h2 | ⟨h2a, h2b⟩ <;> rcases h4 with h4 | ⟨h4a, h4b⟩
    · exact Or.inl (h2.trans h4)
    · exact Or.inl (lt_of_lt_of_le h2 (le_of_eq h4a))
    · exact Or.inl (lt_of_le_of_lt (le_of_eq h2a) h4)
    · exact Or.inr ⟨h2a.trans h4a, h2b.trans h4b⟩⟩

/-- The sorted lobby listing produced for a logged-in viewer
(`out.sort(key=_sort_key)`; Python's sort is stable and the keys are
made distinct by `_order`, so any sorted permutation is the result). -/
def sortLobbies (viewer : Int) (score : Int → ℚ)
    (qs : List LobbyInfo) : List AnnotLobby :=
  List.insertionSort lobbyLE (annotateLobbies viewer score qs)

/-- Modelled from the spec (§4.6): `team_rep` as the exact mean of the
member overall scores, with no rounding. -/
def specTeamRep (memberIds : List Int) (score : Int → ℚ) : ℚ :=
  if memberIds.isEmpty then 0
  else (memberIds.map score).sum / (memberIds.length : ℚ)

/-- Modelled from the spec (§4.6): the claimed sort key
`(joinable? 0 : 1, |team_rep − viewer_rep|, original_index)` with the
exact (unrounded) distance. -/
def specLobbyLE (viewer : Int) (score : Int → ℚ)
    (x y : AnnotLobby) : Prop :=
  lobbyBucket x < lobbyBucket y ∨
    (lobbyBucket x = lobbyBucket y ∧
      (|specTeamRep x.info.members score - score viewer| <
          |specTeamRep y.info.members score - score viewer| ∨
        (|specTeamRep x.info.members score - score viewer| =
            |specTeamRep y.info.members score - score viewer| ∧
          x.ord ≤ y.ord)))

instance instDecSpecLobbyLE (viewer : Int) (score : Int → ℚ) :
    DecidableRel (specLobbyLE viewer score) := fun x y => by
  unfold specLobbyLE
  infer_instance

end TRS

/-- C1: for every non-empty user set and every set of rating rows (and
any damping factor `0 ≤ d < 1`, which includes the default `0.85`), the
trust vector returned by `compute_transitive_trust_scores` assigns a
score to exactly the `n` users (its keys are the user ids), every
component is nonnegative, and the components sum to `1` up to `1e-9`
(in the exact rational model they sum to `1` exactly). -/
theorem C1_trust_vector_partition (ids : List Int) (rows : List TRS.RatingRow)
    (d : ℚ) (maxIter : ℕ) (tol : ℚ)
    (hids : ids ≠ []) (hd0 : 0 ≤ d) (hd1 : d < 1) :
    (TRS.computeTrust ids rows d maxIter tol).map Prod.fst = ids ∧
      (∀ p ∈ TRS.computeTrust ids rows d maxIter tol, 0 ≤ p.2) ∧
      |((TRS.computeTrust ids rows d maxIter tol).map Prod.snd).sum - 1| ≤
        1 / 1000000000 := by
  obtain ⟨h1, h2, h3⟩ :=
    TRS.computeTrust_spec ids rows d maxIter tol hids hd0 hd1
  refine ⟨h1, h2, ?_⟩
  rw [h3]
  norm_num

/-- Witness for C1: the hypotheses are satisfiable, e.g. for three users
with no ratings and the default damping factor. -/
theorem C1_trust_vector_partition_witness :
    (TRS.computeTrust [1, 2, 3] [] (17 / 20) 50 (1 / 10000000000)).map
        Prod.fst = [1, 2, 3] ∧
      (∀ p ∈ TRS.computeTrust [1, 2, 3] [] (17 / 20) 50 (1 / 10000000000),
        0 ≤ p.2) ∧
      |((TRS.computeTrust [1, 2, 3] [] (17 / 20) 50
          (1 / 10000000000)).map Prod.snd).sum - 1| ≤ 1 / 1000000000 :=
  C1_trust_vector_partition [1, 2, 3] [] (17 / 20) 50 (1 / 10000000000)
    (by decide) (by norm_num) (by norm_num)

/-- C7: for every rating row the normalized local trust equals
`(clamp(contribution,0,10)/10 + clamp(communication,0,10)/10 +
(would_work_again ? 1 : 0)) / 3`, missing axis values counting as `0`,
and it lies in `[0,1]`.  Normalization is a total function (it never
raises: non-numeric values are coerced, nulls become `0`). -/
theorem C7_local_trust_normalization (r : TRS.RatingRow) :
    TRS.localTrust r = TRS.specLocalTrust r ∧
      0 ≤ TRS.localTrust r ∧ TRS.localTrust r ≤ 1 := by
  refine ⟨?_, TRS.localTrust_nonneg r, TRS.localTrust_le_one r⟩
  unfold TRS.localTrust TRS.specLocalTrust
  rw [TRS.normalize_eq_specAxisNorm, TRS.normalize_eq_specAxisNorm]

/-- C6: the trust computation raises no exception (it is a total
function in this model); for an empty user set it returns the empty
map; for `n > 0` users and no effective edges it returns the uniform
vector `1/n`; and a user who has received no ratings has reputation
`{contribution_avg: 0, communication_avg: 0, would_work_again_ratio:
null, rating_count: 0}`. -/
theorem C6_degenerate_inputs (ids : List Int) (rows : List TRS.RatingRow)
    (w : Int → ℚ) (u : Int) :
    TRS.computeTrustDefault [] rows = [] ∧
      (ids ≠ [] → (∀ r ∈ rows, TRS.trustEff ids r = false) →
        TRS.computeTrustDefault ids rows =
          ids.map (fun v => (v, 1 / (ids.length : ℚ)))) ∧
      (TRS.incoming rows u = [] →
        TRS.reputation rows w u = ⟨0, 0, none, 0⟩) := by
  refine ⟨rfl, ?_, TRS.reputation_of_no_incoming rows w u⟩
  intro h1 h2
  exact TRS.computeTrust_uniform ids rows (17 / 20) 50 (1 / 10000000000)
    h1 (by norm_num) h2

/-- Witness for C6: three users, no ratings. -/
theorem C6_degenerate_inputs_witness :
    TRS.computeTrustDefault [] [] = [] ∧
      TRS.computeTrustDefault [1, 2, 3] [] =
        ([1, 2, 3] : List Int).map
          (fun v => (v, 1 / ((([1, 2, 3] : List Int).length : ℚ)))) ∧
      TRS.reputation [] (fun _ => 0) 7 = ⟨0, 0, none, 0⟩ :=
  ⟨(C6_degenerate_inputs [1, 2, 3] [] (fun _ => 0) 7).1,
   (C6_degenerate_inputs [1, 2, 3] [] (fun _ => 0) 7).2.1 (by decide)
     (fun r hr => absurd hr (List.not_mem_nil r)),
   (C6_degenerate_inputs [1, 2, 3] [] (fun _ => 0) 7).2.2 rfl⟩

/-- C5: for every target user, `reputation(target, trust_vector)`
returns `contribution_avg = Σ_r w_r·contrib_avg_r / Σ_r w_r` over
raters with positive trust weight and at least one non-null
contribution (`0` on zero denominator), `communication_avg`
symmetrically, `would_work_again_ratio = Σ_r w_r·wwa_ratio_r / Σ_r w_r`
(null on zero denominator), and `rating_count` equal to the number of
incoming rating rows pre-collapse, the two averages rounded to two
decimal places. -/
theorem C5_reputation_formula (rows : List TRS.RatingRow) (w : Int → ℚ)
    (u : Int) :
    TRS.reputation rows w u =
      ⟨TRS.specContributionAvg (TRS.incoming rows u) w,
        TRS.specCommunicationAvg (TRS.incoming rows u) w,
        TRS.specWwaShare (TRS.incoming rows u) w,
        (TRS.incoming rows u).length⟩ := by
  unfold TRS.reputation TRS.specContributionAvg TRS.specCommunicationAvg
    TRS.specWwaShare TRS.specContribRaters TRS.specCommRaters
    TRS.specWwaRaters TRS.contribNum TRS.contribDen TRS.commNum
    TRS.commDen TRS.wwaNum TRS.wwaDen
  simp only [Finset.sum_filter]

/-- C2 (amended): adding an exact duplicate of an existing rating row
leaves every user's trust score and the target's `contribution_avg`,
`communication_avg` and `would_work_again_ratio` unchanged while the
target's `rating_count` grows by exactly 1 — provided every existing
row with the same (rater, target) pair carries the same axis values and
boolean as the duplicated row (in particular whenever that row is the
pair's only distinct row, as in the spec's duplicate scenario). -/
theorem C2_duplicate_immunity_amended (ids : List Int)
    (rows : List TRS.RatingRow) (r : TRS.RatingRow) (a b : Int)
    (hmem : r ∈ rows) (hra : r.rater_id = some a)
    (htg : r.target_user_id = some b)
    (hsame : ∀ r' ∈ rows, r'.rater_id = some a →
      r'.target_user_id = some b →
      r'.contribution = r.contribution ∧
        r'.communication = r.communication ∧
        r'.would_work_again = r.would_work_again) :
    TRS.computeTrustDefault ids (rows ++ [r]) =
        TRS.computeTrustDefault ids rows ∧
      (TRS.pipelineReputation ids (rows ++ [r]) b).contribution_avg =
        (TRS.pipelineReputation ids rows b).contribution_avg ∧
      (TRS.pipelineReputation ids (rows ++ [r]) b).communication_avg =
        (TRS.pipelineReputation ids rows b).communication_avg ∧
      (TRS.pipelineReputation ids (rows ++ [r]) b).wwaShare =
        (TRS.pipelineReputation ids rows b).wwaShare ∧
      (TRS.pipelineReputation ids (rows ++ [r]) b).rating_count =
        (TRS.pipelineReputation ids rows b).rating_count + 1 := by
  have htrust : TRS.computeTrustDefault ids (rows ++ [r]) =
      TRS.computeTrustDefault ids rows := by
    unfold TRS.computeTrustDefault
    exact TRS.computeTrust_rows_congr ids _ _ _ _ _
      (TRS.trustPairMean_append_dup ids rows r a b hmem hra htg hsame)
  have hrep := TRS.reputation_append_dup rows
    (TRS.lookupTrust (TRS.computeTrustDefault ids rows)) r a b
    hmem hra htg hsame
  unfold TRS.pipelineReputation
  rw [htrust, hrep]
  exact ⟨rfl, rfl, rfl, rfl, rfl⟩

/-- Witness for C2 (amended): two users, a single rating row, duplicated. -/
theorem C2_duplicate_immunity_amended_witness :
    TRS.computeTrustDefault [1, 2]
        ([⟨some 1, some 1, some 2, some 10, some 10, true⟩] ++
          [⟨some 1, some 1, some 2, some 10, some 10, true⟩]) =
        TRS.computeTrustDefault [1, 2]
          [⟨some 1, some 1, some 2, some 10, some 10, true⟩] ∧
      (TRS.pipelineReputation [1, 2]
          ([⟨some 1, some 1, some 2, some 10, some 10, true⟩] ++
            [⟨some 1, some 1, some 2, some 10, some 10, true⟩])
          2).contribution_avg =
        (TRS.pipelineReputation [1, 2]
          [⟨some 1, some 1, some 2, some 10, some 10, true⟩]
          2).contribution_avg ∧
      (TRS.pipelineReputation [1, 2]
          ([⟨some 1, some 1, some 2, some 10, some 10, true⟩] ++
            [⟨some 1, some 1, some 2, some 10, some 10, true⟩])
          2).communication_avg =
        (TRS.pipelineReputation [1, 2]
          [⟨some 1, some 1, some 2, some 10, some 10, true⟩]
          2).communication_avg ∧
      (TRS.pipelineReputation [1, 2]
          ([⟨some 1, some 1, some 2, some 10, some 10, true⟩] ++
            [⟨some 1, some 1, some 2, some 10, some 10, true⟩])
          2).wwaShare =
        (TRS.pipelineReputation [1, 2]
          [⟨some 1, some 1, some 2, some 10, some 10, true⟩] 2).wwaShare ∧
      (TRS.pipelineReputation [1, 2]
          ([⟨some 1, some 1, some 2, some 10, some 10, true⟩] ++
            [⟨some 1, some 1, some 2, some 10, some 10, true⟩])
          2).rating_count =
        (TRS.pipelineReputation [1, 2]
          [⟨some 1, some 1, some 2, some 10, some 10, true⟩]
          2).rating_count + 1 :=
  C2_duplicate_immunity_amended [1, 2]
    [⟨some 1, some 1, some 2, some 10, some 10, true⟩]
    ⟨some 1, some 1, some 2, some 10, some 10, true⟩ 1 2
    (by decide) rfl rfl (by decide)

/-- Counterexample for C2 as stated: with rows A→B (4,4,true) in team 1,
A→B (8,8,true) in team 2 and B→A (10,10,true), duplicating the first
row changes B's `contribution_avg` (from 6.0 to 5.33), because rater
A's per-target average shifts when one of two differing rows is
duplicated.  So duplicate immunity does not hold for every database
state. -/
theorem C2_duplicate_immunity_counterexample :
    (TRS.pipelineReputation [1, 2]
        ([⟨some 1, some 1, some 2, some 4, some 4, true⟩,
          ⟨some 2, some 1, some 2, some 8, some 8, true⟩,
          ⟨some 1, some 2, some 1, some 10, some 10, true⟩] ++
          [⟨some 1, some 1, some 2, some 4, some 4, true⟩])
        2).contribution_avg ≠
      (TRS.pipelineReputation [1, 2]
        [⟨some 1, some 1, some 2, some 4, some 4, true⟩,
          ⟨some 2, some 1, some 2, some 8, some 8, true⟩,
          ⟨some 1, some 2, some 1, some 10, some 10, true⟩]
        2).contribution_avg := by
  set_option maxRecDepth 4000 in
  with_unfolding_all decide

/-- C3 (amended): inserting a rating row whose rater equals its target
changes no user's trust score (self-edges are filtered out of the
collapse) and changes no reputation of any user other than the
rater/target themself.  The rater's own reputation averages can change,
because `User.reputation` does not exclude self-ratings; immunity for
them is enforced only at the submission boundary. -/
theorem C3_self_rating_amended (ids : List Int) (rows : List TRS.RatingRow)
    (r : TRS.RatingRow) (a : Int) (hra : r.rater_id = some a)
    (htg : r.target_user_id = some a) :
    TRS.computeTrustDefault ids (rows ++ [r]) =
        TRS.computeTrustDefault ids rows ∧
      ∀ u : Int, u ≠ a →
        TRS.pipelineReputation ids (rows ++ [r]) u =
          TRS.pipelineReputation ids rows u := by
  have htrust : TRS.computeTrustDefault ids (rows ++ [r]) =
      TRS.computeTrustDefault ids rows := by
    unfold TRS.computeTrustDefault
    exact TRS.computeTrust_rows_congr ids _ _ _ _ _
      (TRS.trustPairMean_append_self ids rows r a hra htg)
  refine ⟨htrust, ?_⟩
  intro u hu
  unfold TRS.pipelineReputation
  rw [htrust]
  apply TRS.reputation_append_other
  rw [htg]
  intro hcon
  exact hu (Option.some_inj.mp hcon).symm

/-- Witness for C3 (amended): a self-rating of user 1 in a two-user
system, observed from user 2. -/
theorem C3_self_rating_amended_witness :
    TRS.computeTrustDefault [1, 2]
        ([] ++ [⟨some 1, some 1, some 1, some 5, some 5, true⟩]) =
        TRS.computeTrustDefault [1, 2] [] ∧
      TRS.pipelineReputation [1, 2]
          ([] ++ [⟨some 1, some 1, some 1, some 5, some 5, true⟩]) 2 =
        TRS.pipelineReputation [1, 2] [] 2 :=
  ⟨(C3_self_rating_amended [1, 2] []
      ⟨some 1, some 1, some 1, some 5, some 5, true⟩ 1 rfl rfl).1,
   (C3_self_rating_amended [1, 2] []
      ⟨some 1, some 1, some 1, some 5, some 5, true⟩ 1 rfl rfl).2 2
     (by decide)⟩

/-- Counterexample for C3 as stated: inserting the self-rating
1→1 (10,10,true) into an empty database with a single user changes that
user's own `contribution_avg` from 0 to 10, because `User.reputation`
counts self-ratings. -/
theorem C3_self_rating_counterexample :
    (TRS.pipelineReputation [1]
        ([] ++ [⟨some 1, some 1, some 1, some 10, some 10, true⟩])
        1).contribution_avg ≠
      (TRS.pipelineReputation [1] [] 1).contribution_avg := by
  set_option maxRecDepth 4000 in
  with_unfolding_all decide

/-- C4 (amended): for every ordered pair of distinct users, the
collapsed edge weight emitted by `/api/graph` equals the arithmetic
mean of the per-row normalized local trusts across the pair's rating
rows *with positive local trust* (rows whose local trust is `0` are
excluded from both the sum and the count), considering all teams; and
the weight used by the trust iterator agrees whenever every row
references existing users.  The spec's "across all rating rows with
that pair" holds only once zero-local rows are excluded. -/
theorem C4_collapsed_edge_weight_amended (ids : List Int)
    (rows : List TRS.RatingRow) (a b : Int) (hab : a ≠ b) :
    TRS.graphPairMean rows a b = TRS.posPairMean rows a b ∧
      ((∀ r ∈ rows, TRS.knownB ids r = true) →
        TRS.trustPairMean ids rows a b = TRS.posPairMean rows a b) := by
  have hg : TRS.graphPairMean rows a b = TRS.posPairMean rows a b := by
    unfold TRS.graphPairMean TRS.graphPairSum TRS.graphPairCount
      TRS.posPairMean
    rw [TRS.graphPairRows_eq_posPairRows rows a b hab]
  refine ⟨hg, ?_⟩
  intro hall
  have hfk : rows.filter (TRS.knownB ids) = rows :=
    List.filter_eq_self.mpr hall
  have hrows := TRS.trustPairRows_eq_filter_known ids rows a b
  rw [hfk] at hrows
  unfold TRS.trustPairMean TRS.trustPairSum TRS.trustPairCount
  rw [hrows]
  unfold TRS.graphPairMean TRS.graphPairSum TRS.graphPairCount at hg
  exact hg

/-- Witness for C4 (amended): one 1→2 row between two existing users. -/
theorem C4_collapsed_edge_weight_amended_witness :
    TRS.graphPairMean [⟨some 1, some 1, some 2, some 10, some 10, true⟩]
        1 2 =
      TRS.posPairMean [⟨some 1, some 1, some 2, some 10, some 10, true⟩]
        1 2 ∧
      TRS.trustPairMean [1, 2]
          [⟨some 1, some 1, some 2, some 10, some 10, true⟩] 1 2 =
        TRS.posPairMean [⟨some 1, some 1, some 2, some 10, some 10, true⟩]
          1 2 :=
  ⟨(C4_collapsed_edge_weight_amended [1, 2]
      [⟨some 1, some 1, some 2, some 10, some 10, true⟩] 1 2
      (by decide)).1,
   (C4_collapsed_edge_weight_amended [1, 2]
      [⟨some 1, some 1, some 2, some 10, some 10, true⟩] 1 2
      (by decide)).2 (by decide)⟩

/-- Counterexample for C4 as stated: the pair 1→2 has two rows, one
with local trust 0 (axes 0/0, false) and one with local trust 1
(axes 10/10, true).  The emitted/used collapsed weight is 1 (the
zero-local row is dropped from sum and count), while the arithmetic
mean across all rows of the pair is 1/2. -/
theorem C4_collapsed_edge_weight_counterexample :
    TRS.graphPairMean
        [⟨some 1, some 1, some 2, some 0, some 0, false⟩,
          ⟨some 1, some 1, some 2, some 10, some 10, true⟩] 1 2 ≠
      TRS.specPairMeanAll
        [⟨some 1, some 1, some 2, some 0, some 0, false⟩,
          ⟨some 1, some 1, some 2, some 10, some 10, true⟩] 1 2 := by
  with_unfolding_all decide

/-- C10: the (rater, target) → (averaged local weight, row count)
mapping of the `/api/graph` collapser computed on the rows whose
endpoints are existing users coincides with the collapsed weights and
counts built inside `compute_transitive_trust_scores`; hence on
databases where every row references existing users the two collapsers
agree, and only rows referencing a non-existent id are treated
differently (skipped by the trust computation, emitted by
`/api/graph`). -/
theorem C10_collapser_refinement (ids : List Int)
    (rows : List TRS.RatingRow) (a b : Int) :
    (TRS.trustPairMean ids rows a b =
        TRS.graphPairMean (rows.filter (TRS.knownB ids)) a b ∧
      TRS.trustPairCount ids rows a b =
        TRS.graphPairCount (rows.filter (TRS.knownB ids)) a b) ∧
      ((∀ r ∈ rows, TRS.knownB ids r = true) →
        TRS.trustPairMean ids rows a b = TRS.graphPairMean rows a b ∧
          TRS.trustPairCount ids rows a b = TRS.graphPairCount rows a b) := by
  have hrows := TRS.trustPairRows_eq_filter_known ids rows a b
  constructor
  · constructor
    · unfold TRS.trustPairMean TRS.trustPairSum TRS.trustPairCount
        TRS.graphPairMean TRS.graphPairSum TRS.graphPairCount
      rw [hrows]
    · unfold TRS.trustPairCount TRS.graphPairCount
      rw [hrows]
  · intro hall
    have hfk : rows.filter (TRS.knownB ids) = rows :=
      List.filter_eq_self.mpr hall
    rw [hfk] at hrows
    constructor
    · unfold TRS.trustPairMean TRS.trustPairSum TRS.trustPairCount
        TRS.graphPairMean TRS.graphPairSum TRS.graphPairCount
      rw [hrows]
    · unfold TRS.trustPairCount TRS.graphPairCount
      rw [hrows]

/-- Witness for C10: a two-row database where every row references the
existing users 1 and 2. -/
theorem C10_collapser_refinement_witness :
    TRS.trustPairMean [1, 2]
        [⟨some 1, some 1, some 2, some 10, some 10, true⟩,
          ⟨some 2, some 2, some 1, some 6, some 4, false⟩] 1 2 =
      TRS.graphPairMean
        [⟨some 1, some 1, some 2, some 10, some 10, true⟩,
          ⟨some 2, some 2, some 1, some 6, some 4, false⟩] 1 2 ∧
      TRS.trustPairCount [1, 2]
          [⟨some 1, some 1, some 2, some 10, some 10, true⟩,
            ⟨some 2, some 2, some 1, some 6, some 4, false⟩] 1 2 =
        TRS.graphPairCount
          [⟨some 1, some 1, some 2, some 10, some 10, true⟩,
            ⟨some 2, some 2, some 1, some 6, some 4, false⟩] 1 2 :=
  (C10_collapser_refinement [1, 2]
      [⟨some 1, some 1, some 2, some 10, some 10, true⟩,
        ⟨some 2, some 2, some 1, some 6, some 4, false⟩] 1 2).2
    (by decide)

/-- C8 (amended): for every logged-in viewer the lobby listing is
sorted ascending by the key
`(0 if joinable else 1, round2 |team_rep − viewer_rep|, original index)`
where `team_rep` is the member scores' mean *rounded to two decimals*
(`_aggregate_team_rep_0_to_10`) and the distance is rounded again;
joinable means the viewer is neither (truthy) leader nor member, the
lobby is not finished and the team is not locked.  The output is a
permutation of the annotated baseline list. -/
theorem C8_lobby_sort_amended (viewer : Int) (score : Int → ℚ)
    (qs : List TRS.LobbyInfo) :
    List.Sorted TRS.lobbyLE (TRS.sortLobbies viewer score qs) ∧
      List.Perm (TRS.sortLobbies viewer score qs)
        (TRS.annotateLobbies viewer score qs) :=
  ⟨List.sorted_insertionSort TRS.lobbyLE
      (TRS.annotateLobbies viewer score qs),
    List.perm_insertionSort TRS.lobbyLE
      (TRS.annotateLobbies viewer score qs)⟩

/-- Counterexample for C8 as stated: viewer 10 has score 5.00; lobby
L1 (index 0) has members scoring 4.99, 5.00, 5.00, so its exact mean
is 1499/300 ≈ 4.9967 (exact distance 1/300) but its rounded
`team_reputation` is 5.00 (code distance 0); lobby L2 (index 1) has one
member scoring 5.00 (distance 0 both ways).  The code ties the two at
distance 0 and keeps L1 first by index, while the claimed key with the
exact mean would place L2 strictly first, so the produced listing is
not sorted by the claimed key. -/
theorem C8_lobby_sort_counterexample :
    ¬ List.Sorted
        (TRS.specLobbyLE 10 (fun u => if u = 1 then 499 / 100 else 5))
        (TRS.sortLobbies 10 (fun u => if u = 1 then 499 / 100 else 5)
          [⟨1, some 1, false, false, [1, 2, 3]⟩,
            ⟨2, some 1, false, false, [4]⟩]) := by
  with_unfolding_all decide

/-- C9 (amended): a page-based rating submission
(`rate_member_page`) leaves exactly one row for the submitted
(team, rater, target) triple — replacing the first existing row and
deleting any extras — and leaves the rows of every other triple
untouched.  The JSON API endpoint (`rate_member`), however, always
inserts an additional row, so repeated API submissions accumulate
duplicate rows for the same triple. -/
theorem C9_rating_rewrite_amended (rows : List TRS.RatingRow)
    (t rt tg : Int) (c k : ℚ) (w : Bool) :
    TRS.countTriple (TRS.pageSubmitRatings rows t rt tg c k w) t rt tg
        = 1 ∧
      ∀ t' rt' tg' : Int, (t', rt', tg') ≠ (t, rt, tg) →
        (TRS.pageSubmitRatings rows t rt tg c k w).filter
            (TRS.matchesTriple t' rt' tg') =
          rows.filter (TRS.matchesTriple t' rt' tg') := by
  constructor
  · unfold TRS.countTriple TRS.pageSubmitRatings
    by_cases hany : rows.any (TRS.matchesTriple t rt tg) = true
    · rw [if_pos hany]
      rw [TRS.filter_replaceFirstDropRest (TRS.matchesTriple t rt tg)
        (TRS.mkRating t rt tg (some c) (some k) w)
        (TRS.matchesTriple_mkRating t rt tg (some c) (some k) w)
        rows hany]
      rfl
    · rw [if_neg hany]
      rw [List.filter_append]
      have h1 : rows.filter (TRS.matchesTriple t rt tg) = [] := by
        apply List.filter_eq_nil_iff.mpr
        intro r hr
        intro hpr
        exact hany (List.any_eq_true.mpr ⟨r, hr, hpr⟩)
      rw [h1, List.filter_cons_of_pos
        (TRS.matchesTriple_mkRating t rt tg (some c) (some k) w)]
      rfl
  · intro t' rt' tg' hne
    have hdisj : ∀ x, TRS.matchesTriple t' rt' tg' x = true →
        TRS.matchesTriple t rt tg x = false :=
      fun x hx => TRS.matchesTriple_unique t rt tg t' rt' tg' x
        (fun hcon => hne (by
          injection hcon with e1 e2
          injection e2 with e2 e3
          rw [e1, e2, e3])) hx
    have hqnw : TRS.matchesTriple t' rt' tg'
        (TRS.mkRating t rt tg (some c) (some k) w) = false := by
      cases hq : TRS.matchesTriple t' rt' tg'
        (TRS.mkRating t rt tg (some c) (some k) w)
      · rfl
      · exact absurd (TRS.matchesTriple_mkRating t rt tg (some c)
          (some k) w) (by simp [hdisj _ hq])
    unfold TRS.pageSubmitRatings
    by_cases hany : rows.any (TRS.matchesTriple t rt tg) = true
    · rw [if_pos hany]
      exact TRS.filter_q_replaceFirstDropRest
        (TRS.matchesTriple t rt tg) (TRS.matchesTriple t' rt' tg')
        (TRS.mkRating t rt tg (some c) (some k) w) hqnw hdisj rows
    · rw [if_neg hany]
      rw [List.filter_append, List.filter_cons_of_neg (by simp [hqnw])]
      simp

/-- Witness for C9 (amended): overwriting the 1→2 rating of team 1
while team 2's row stays untouched. -/
theorem C9_rating_rewrite_amended_witness :
    TRS.countTriple
        (TRS.pageSubmitRatings
          [TRS.mkRating 1 1 2 (some 3) (some 3) false,
            TRS.mkRating 2 1 2 (some 7) (some 7) true]
          1 1 2 9 9 true) 1 1 2 = 1 ∧
      (TRS.pageSubmitRatings
          [TRS.mkRating 1 1 2 (some 3) (some 3) false,
            TRS.mkRating 2 1 2 (some 7) (some 7) true]
          1 1 2 9 9 true).filter (TRS.matchesTriple 2 1 2) =
        [TRS.mkRating 1 1 2 (some 3) (some 3) false,
          TRS.mkRating 2 1 2 (some 7) (some 7) true].filter
          (TRS.matchesTriple 2 1 2) :=
  ⟨(C9_rating_rewrite_amended
      [TRS.mkRating 1 1 2 (some 3) (some 3) false,
        TRS.mkRating 2 1 2 (some 7) (some 7) true] 1 1 2 9 9 true).1,
   (C9_rating_rewrite_amended
      [TRS.mkRating 1 1 2 (some 3) (some 3) false,
        TRS.mkRating 2 1 2 (some 7) (some 7) true] 1 1 2 9 9 true).2
     2 1 2 (by decide)⟩

/-- Counterexample for C9 as stated: the JSON API endpoint accepts a
second submission for the already-rated triple (team 1, rater 1,
target 2) and afterwards two rows exist for that triple, so rating
submission does not always replace. -/
theorem C9_rating_rewrite_counterexample :
    TRS.apiRateMember true [1, 2]
        [TRS.mkRating 1 1 2 (some 5) (some 5) true] 1 1 2 5 5 true =
      some [TRS.mkRating 1 1 2 (some 5) (some 5) true,
        TRS.mkRating 1 1 2 (some 5) (some 5) true] ∧
      TRS.countTriple
        [TRS.mkRating 1 1 2 (some 5) (some 5) true,
          TRS.mkRating 1 1 2 (some 5) (some 5) true] 1 1 2 = 2 := by
  constructor
  · with_unfolding_all decide
  · with_unfolding_all decide
